import Mathlib

/-
Verification of the mitt event emitter (src/src/index.ts) against its
specification. The registry `all` is a JS Map from event-type keys to
arrays of handler references; we embed it as an association list from
string keys to lists of handler identifiers. Handler reference identity
becomes equality of identifiers. Handler bodies are embedded as scripts
of emitter actions (register, unregister, re-emit, throw), interpreted
by a fuel-indexed evaluator that produces the invocation trace of an
emit call.
-/

set_option autoImplicit false

namespace Mitt

/-- Event-type identifiers (strings or symbols in the source). -/
abbrev Key := String

/-- Handler references, compared by identity in the source; embedded as
identifiers compared by equality. -/
abbrev HId := Nat

/-- Event payload values. -/
abbrev Val := Nat

/-- The registry `all`: a Map from event types to arrays of handlers,
embedded as an association list. A JS Map never holds a key twice; all
operations below read and update the first matching entry, so behaviour
agrees with Map semantics. -/
abbrev Registry := List (Key × List HId)

/-- The reserved wildcard key. -/
def wildcard : Key := "*"

/-- `all.get(k)`: first entry with key `k`, if any. -/
def mapGet : Registry → Key → Option (List HId)
  | [], _ => none
  | (k', v') :: rest, k => if k' = k then some v' else mapGet rest k

/-- `all.set(k, v)`: update the existing entry in place, or append a new
entry at the end (JS Map insertion order). -/
def mapSet : Registry → Key → List HId → Registry
  | [], k, v => [(k, v)]
  | (k', v') :: rest, k, v =>
    if k' = k then (k, v) :: rest else (k', v') :: mapSet rest k v

/-- The handler sequence registered under `k` (empty when the key is
absent). -/
def getHandlers (r : Registry) (k : Key) : List HId :=
  (mapGet r k).getD []

/-- `handlers.indexOf(h)`: index of the first occurrence of `h`. -/
def idxOf : List HId → HId → Option Nat
  | [], _ => none
  | x :: rest, h => if x = h then some 0 else (idxOf rest h).map (· + 1)

/-- `handlers.splice(handlers.indexOf(handler) >>> 0, 1)`: when `h`
occurs, remove the element at its first index; when `indexOf` returns
-1, the unsigned shift turns it into 2^32 - 1, an index past the end of
any JS array, so `splice` removes nothing. -/
def offSplice (l : List HId) (h : HId) : List HId :=
  match idxOf l h with
  | some i => l.eraseIdx i
  | none => l

/-- `_on(type, handler)` state effect: append `handler` to the sequence
of `type`, creating the sequence if absent. -/
def onSingle (r : Registry) (k : Key) (h : HId) : Registry :=
  match mapGet r k with
  | some hs => mapSet r k (hs ++ [h])
  | none => mapSet r k [h]

/-- `off(type, handler?)`: no-op when the key is absent; with a handler,
splice out its first occurrence; without, set the sequence of the key to
a fresh empty array (the key is kept). -/
def off (r : Registry) (k : Key) (oh : Option HId) : Registry :=
  match mapGet r k with
  | none => r
  | some hs =>
    match oh with
    | some h => mapSet r k (offSplice hs h)
    | none => mapSet r k []

/-- `_onArray(types, handler)` state effect: `_on` for each type in
order. -/
def onArray (r : Registry) (ks : List Key) (h : HId) : Registry :=
  ks.foldl (fun acc k => onSingle acc k h) r

/-- The argument shape of `on`: a single type or an array of types
(`Array.isArray` dispatch). -/
inductive OnArg where
  | one (k : Key)
  | many (ks : List Key)
deriving DecidableEq

/-- The identifiers an `on` argument registers under. -/
def argKeys : OnArg → List Key
  | OnArg.one k => [k]
  | OnArg.many ks => ks

/-- `on(type, handler)` state effect: dispatch on the argument shape. -/
def onReg (r : Registry) (a : OnArg) (h : HId) : Registry :=
  match a with
  | OnArg.one k => onSingle r k h
  | OnArg.many ks => onArray r ks h

/-- The state effect of one invocation of the zero-argument closure
returned by `_onArray`: `off(type, handler)` for each type in order. -/
def unsubArray (ks : List Key) (h : HId) (r : Registry) : Registry :=
  ks.foldl (fun acc k => off acc k (some h)) r

/-- The state effect of one invocation of the closure returned by `on`:
for `_on` it is `off(type, handler)`, for `_onArray` one `off` per
type. -/
def unsub (a : OnArg) (h : HId) (r : Registry) : Registry :=
  match a with
  | OnArg.one k => off r k (some h)
  | OnArg.many ks => unsubArray ks h r

/-- What a handler body may do when invoked: register a handler, remove
one (or clear a type), emit recursively, or throw. -/
inductive Action where
  | actOn (k : Key) (h : HId)
  | actOff (k : Key) (oh : Option HId)
  | actEmit (k : Key) (v : Val)
  | actThrow
deriving DecidableEq

/-- An environment assigning each handler identifier the script its body
runs when invoked. -/
abbrev Env := HId → List Action

/-- Observable invocation events: a typed handler called with the
payload, or a wildcard handler called with the type and the payload. -/
inductive Ev where
  | callT (h : HId) (v : Val)
  | callW (h : HId) (k : Key) (v : Val)
deriving DecidableEq

/-- Result of a run: final registry, invocation trace, and `true` for
normal completion / `false` for an exception propagating out. `none`
at the interpreter level means fuel ran out (unbounded re-emission). -/
abbrev Outcome := Registry × List Ev × Bool

/-- Run a handler script: each action updates the registry; a nested
emit is delegated to `emitFn`; a throw aborts the script with the
failure flag. -/
def runScript (emitFn : Key → Val → Registry → Option Outcome) :
    List Action → Registry → Option Outcome
  | [], r => some (r, [], true)
  | a :: rest, r =>
    let step : Option Outcome :=
      match a with
      | Action.actOn k h => some (onSingle r k h, [], true)
      | Action.actOff k oh => some (off r k oh, [], true)
      | Action.actEmit k v => emitFn k v r
      | Action.actThrow => some (r, [], false)
    match step with
    | none => none
    | some (r1, tr1, ok1) =>
      if ok1 then
        match runScript emitFn rest r1 with
        | none => none
        | some (r2, tr2, ok2) => some (r2, tr1 ++ tr2, ok2)
      else some (r1, tr1, false)

/-- `snapshot.map(handler => handler(...))`: invoke the handlers of a
snapshot in order, recording an invocation event for each and running
its script; an exception aborts the remaining invocations. -/
def invokeList (emitFn : Key → Val → Registry → Option Outcome)
    (env : Env) (mkEv : HId → Ev) :
    List HId → Registry → Option Outcome
  | [], r => some (r, [], true)
  | h :: rest, r =>
    match runScript emitFn (env h) r with
    | none => none
    | some (r1, tr1, ok1) =>
      if ok1 then
        match invokeList emitFn env mkEv rest r1 with
        | none => none
        | some (r2, tr2, ok2) => some (r2, mkEv h :: (tr1 ++ tr2), ok2)
      else some (r1, mkEv h :: tr1, false)

/-- `emit(type, evt)`: look up the sequence of `type`; if present,
snapshot it (`.slice()`) and invoke each handler with the payload. Then
look up the wildcard sequence in the possibly mutated registry; if
present, snapshot it and invoke each handler with the type and payload.
Fuel bounds the depth of handler-driven re-emission. -/
def emitR (env : Env) : Nat → Key → Val → Registry → Option Outcome
  | 0, _, _, _ => none
  | Nat.succ fuel, t, v, r =>
    match (match mapGet r t with
           | some hs =>
             invokeList (emitR env fuel) env (fun h => Ev.callT h v) hs r
           | none => some (r, [], true)) with
    | none => none
    | some (r1, tr1, ok1) =>
      if ok1 then
        match (match mapGet r1 wildcard with
               | some hs =>
                 invokeList (emitR env fuel) env (fun h => Ev.callW h t v)
                   hs r1
               | none => some (r1, [], true)) with
        | none => none
        | some (r2, tr2, ok2) => some (r2, tr1 ++ tr2, ok2)
      else some (r1, tr1, false)

/-- The registry effect of one handler action, for handlers that do not
re-emit or throw (re-emission and throwing are handled by the
interpreter above). -/
def applyAct (a : Action) (r : Registry) : Registry :=
  match a with
  | Action.actOn k h => onSingle r k h
  | Action.actOff k oh => off r k oh
  | Action.actEmit _ _ => r
  | Action.actThrow => r

/-- The registry effect of a whole handler script. -/
def applyScript (s : List Action) (r : Registry) : Registry :=
  s.foldl (fun acc a => applyAct a acc) r

/-- The registry effect of one dispatch pass over a snapshot: each
handler in order applies its script. -/
def runPhase (env : Env) (hs : List HId) (r : Registry) : Registry :=
  hs.foldl (fun acc h => applyScript (env h) acc) r

/-- Actions that neither re-emit nor throw. -/
def Action.isPure : Action → Bool
  | Action.actOn _ _ => true
  | Action.actOff _ _ => true
  | _ => false

/-- Environments whose handlers may mutate the registry but never
re-emit and never throw. -/
def PureEnv (env : Env) : Prop := ∀ h, ∀ a ∈ env h, a.isPure = true

/-- Environments whose handlers do nothing at all when invoked (pure
observers). -/
def SilentEnv (env : Env) : Prop := ∀ h, env h = []

/-- The registry after the type-matched dispatch pass of
`emit(t, ...)` from registry `r`, for pure handler environments. -/
def afterTyped (env : Env) (t : Key) (r : Registry) : Registry :=
  runPhase env (getHandlers r t) r

/-- The registry after a whole `emit(t, ...)` call from registry `r`,
for pure handler environments: the wildcard pass runs on the registry
the typed pass produced. -/
def finalState (env : Env) (t : Key) (r : Registry) : Registry :=
  runPhase env (getHandlers (afterTyped env t r) wildcard)
    (afterTyped env t r)

/-- The invocation trace of a whole `emit(t, v)` call from registry `r`,
for pure handler environments: the typed snapshot in order with payload
`v`, then the wildcard sequence read after the typed pass, in order,
with `(t, v)`. -/
def pureTrace (env : Env) (t : Key) (v : Val) (r : Registry) : List Ev :=
  (getHandlers r t).map (fun h => Ev.callT h v) ++
    (getHandlers (afterTyped env t r) wildcard).map
      (fun h => Ev.callW h t v)

/-- A concrete environment of observer handlers that do nothing when
invoked. -/
def obsEnv : Env := fun _ => []

/-- A concrete environment where handler 1 registers handler 9 for type
"a" during its own invocation. -/
def envReg : Env := fun g => if g = 1 then [Action.actOn "a" 9] else []

/-- A concrete environment where handler 1 registers wildcard handler 9
during its own invocation. -/
def envRegW : Env := fun g => if g = 1 then [Action.actOn "*" 9] else []

/-- A concrete environment where handler 2 throws when invoked. -/
def envThrow : Env := fun g => if g = 2 then [Action.actThrow] else []

/- Basic lemmas about the registry operations. -/

@[simp]
theorem mapGet_mapSet_self (r : Registry) (k : Key) (v : List HId) :
    mapGet (mapSet r k v) k = some v := by
  induction r with
  | nil => simp [mapGet, mapSet]
  | cons p rest ih =>
    obtain ⟨pk, pv⟩ := p
    by_cases hk : pk = k
    · simp [mapGet, mapSet, hk]
    · simp [mapGet, mapSet, hk, ih]

theorem mapGet_mapSet_ne (r : Registry) (k k' : Key) (v : List HId)
    (hne : k' ≠ k) : mapGet (mapSet r k v) k' = mapGet r k' := by
  induction r with
  | nil => simp [mapGet, mapSet, Ne.symm hne]
  | cons p rest ih =>
    obtain ⟨pk, pv⟩ := p
    by_cases hk : pk = k
    · simp [mapGet, mapSet, hk, Ne.symm hne]
    · simp [mapGet, mapSet, hk, ih]

theorem mapSet_same (r : Registry) (k : Key) (v : List HId)
    (hget : mapGet r k = some v) : mapSet r k v = r := by
  induction r with
  | nil => simp [mapGet] at hget
  | cons p rest ih =>
    obtain ⟨pk, pv⟩ := p
    by_cases hk : pk = k
    · simp only [mapGet, if_pos hk] at hget
      obtain rfl : pv = v := Option.some.inj hget
      simp only [mapSet, if_pos hk]
      rw [← hk]
    · simp only [mapGet, if_neg hk] at hget
      simp [mapSet, hk, ih hget]

@[simp]
theorem offSplice_nil (h : HId) : offSplice [] h = [] := rfl

theorem offSplice_cons (x : HId) (xs : List HId) (h : HId) :
    offSplice (x :: xs) h = if x = h then xs else x :: offSplice xs h := by
  by_cases hx : x = h
  · have h1 : idxOf (x :: xs) h = some 0 := by simp [idxOf, hx]
    simp only [offSplice, h1, if_pos hx]
    rfl
  · have h1 : idxOf (x :: xs) h = (idxOf xs h).map (· + 1) := by
      simp [idxOf, hx]
    rw [if_neg hx]
    cases hi : idxOf xs h with
    | none =>
      simp only [offSplice, h1, hi, Option.map_none']
    | some i =>
      simp only [offSplice, h1, hi, Option.map_some']
      rfl

theorem offSplice_of_not_mem (l : List HId) (h : HId) (hm : h ∉ l) :
    offSplice l h = l := by
  induction l with
  | nil => rfl
  | cons x xs ih =>
    rw [List.mem_cons, not_or] at hm
    rw [offSplice_cons, if_neg (Ne.symm hm.1), ih hm.2]

theorem offSplice_append_first (l1 l2 : List HId) (h : HId)
    (hm : h ∉ l1) : offSplice (l1 ++ h :: l2) h = l1 ++ l2 := by
  induction l1 with
  | nil => simp [offSplice_cons]
  | cons x xs ih =>
    rw [List.mem_cons, not_or] at hm
    rw [List.cons_append, offSplice_cons, if_neg (Ne.symm hm.1), ih hm.2,
      List.cons_append]

theorem mem_of_mem_offSplice (l : List HId) (h g : HId)
    (hm : g ∈ offSplice l h) : g ∈ l := by
  induction l with
  | nil =>
    rw [offSplice_nil] at hm
    exact absurd hm (List.not_mem_nil g)
  | cons x xs ih =>
    rw [offSplice_cons] at hm
    by_cases hx : x = h
    · rw [if_pos hx] at hm
      exact List.mem_cons_of_mem x hm
    · rw [if_neg hx, List.mem_cons] at hm
      rcases hm with hm | hm
      · exact hm ▸ List.mem_cons_self x xs
      · exact List.mem_cons_of_mem x (ih hm)

theorem count_offSplice (l : List HId) (h : HId) (hm : h ∈ l) :
    (offSplice l h).count h + 1 = l.count h := by
  induction l with
  | nil => cases hm
  | cons x xs ih =>
    rw [offSplice_cons]
    by_cases hx : x = h
    · subst hx
      simp
    · rw [List.mem_cons] at hm
      rcases hm with hm | hm
      · exact absurd hm.symm hx
      · simp [List.count_cons, hx, ih hm]

theorem getHandlers_onSingle_self (r : Registry) (k : Key) (h : HId) :
    getHandlers (onSingle r k h) k = getHandlers r k ++ [h] := by
  cases hm : mapGet r k with
  | none => simp [onSingle, getHandlers, hm]
  | some hs => simp [onSingle, getHandlers, hm]

theorem getHandlers_onSingle_ne (r : Registry) (k k' : Key) (h : HId)
    (hne : k' ≠ k) : getHandlers (onSingle r k h) k' = getHandlers r k' := by
  cases hm : mapGet r k with
  | none => simp [onSingle, getHandlers, hm, mapGet_mapSet_ne r k k' _ hne]
  | some hs => simp [onSingle, getHandlers, hm, mapGet_mapSet_ne r k k' _ hne]

theorem getHandlers_off_some (r : Registry) (k : Key) (h : HId) :
    getHandlers (off r k (some h)) k = offSplice (getHandlers r k) h := by
  cases hm : mapGet r k with
  | none => simp [off, getHandlers, hm]
  | some hs => simp [off, getHandlers, hm]

theorem getHandlers_off_ne (r : Registry) (k k' : Key) (oh : Option HId)
    (hne : k' ≠ k) : getHandlers (off r k oh) k' = getHandlers r k' := by
  cases hm : mapGet r k with
  | none => simp [off, hm]
  | some hs =>
    cases oh with
    | none => simp [off, getHandlers, hm, mapGet_mapSet_ne r k k' _ hne]
    | some h => simp [off, getHandlers, hm, mapGet_mapSet_ne r k k' _ hne]

theorem off_of_not_mem (r : Registry) (k : Key) (h : HId)
    (hm : h ∉ getHandlers r k) : off r k (some h) = r := by
  cases hg : mapGet r k with
  | none => simp [off, hg]
  | some hs =>
    have hmem : h ∉ hs := by simpa [getHandlers, hg] using hm
    simp [off, hg, offSplice_of_not_mem hs h hmem, mapSet_same r k hs hg]

/- Lemmas about registration over lists of types. -/

theorem onArray_cons (r : Registry) (k0 : Key) (ks : List Key) (h : HId) :
    onArray r (k0 :: ks) h = onArray (onSingle r k0 h) ks h := rfl

theorem unsubArray_cons (r : Registry) (k0 : Key) (ks : List Key)
    (h : HId) :
    unsubArray (k0 :: ks) h r = unsubArray ks h (off r k0 (some h)) := rfl

theorem getHandlers_onArray (ks : List Key) (r : Registry) (h : HId)
    (k : Key) (hnd : ks.Nodup) :
    getHandlers (onArray r ks h) k =
      getHandlers r k ++ (if k ∈ ks then [h] else []) := by
  induction ks generalizing r with
  | nil => simp [onArray]
  | cons k0 ks ih =>
    rw [List.nodup_cons] at hnd
    rw [onArray_cons, ih _ hnd.2]
    by_cases hk : k = k0
    · subst hk
      rw [getHandlers_onSingle_self]
      simp [hnd.1]
    · rw [getHandlers_onSingle_ne _ _ _ _ hk]
      simp [List.mem_cons, hk]

theorem getHandlers_unsubArray (ks : List Key) (r : Registry) (h : HId)
    (k : Key) (hnd : ks.Nodup) :
    getHandlers (unsubArray ks h r) k =
      if k ∈ ks then offSplice (getHandlers r k) h else getHandlers r k := by
  induction ks generalizing r with
  | nil => simp [unsubArray]
  | cons k0 ks ih =>
    rw [List.nodup_cons] at hnd
    rw [unsubArray_cons, ih _ hnd.2]
    by_cases hk : k = k0
    · subst hk
      simp [hnd.1, getHandlers_off_some]
    · simp [List.mem_cons, hk, getHandlers_off_ne r k0 k _ hk]

theorem unsubArray_id (ks : List Key) (r : Registry) (h : HId)
    (habs : ∀ k ∈ ks, h ∉ getHandlers r k) : unsubArray ks h r = r := by
  induction ks with
  | nil => rfl
  | cons k0 ks ih =>
    have h0 : off r k0 (some h) = r :=
      off_of_not_mem r k0 h (habs k0 (List.mem_cons_self k0 ks))
    rw [unsubArray_cons, h0]
    exact ih (fun k hk => habs k (List.mem_cons_of_mem k0 hk))

theorem onReg_eq_onArray (r : Registry) (a : OnArg) (h : HId) :
    onReg r a h = onArray r (argKeys a) h := by
  cases a <;> rfl

theorem unsub_eq_unsubArray (r : Registry) (a : OnArg) (h : HId) :
    unsub a h r = unsubArray (argKeys a) h r := by
  cases a <;> rfl

/- Lemmas about the emit interpreter for pure handler environments. -/

theorem applyScript_cons (a : Action) (s : List Action) (r : Registry) :
    applyScript (a :: s) r = applyScript s (applyAct a r) := rfl

theorem runPhase_cons (env : Env) (h : HId) (hs : List HId)
    (r : Registry) :
    runPhase env (h :: hs) r = runPhase env hs (applyScript (env h) r) :=
  rfl

theorem runScript_pure (emitFn : Key → Val → Registry → Option Outcome)
    (s : List Action) (r : Registry)
    (hp : ∀ a ∈ s, a.isPure = true) :
    runScript emitFn s r = some (applyScript s r, [], true) := by
  induction s generalizing r with
  | nil => rfl
  | cons a rest ih =>
    have ha := hp a (List.mem_cons_self a rest)
    have hrest : ∀ b ∈ rest, b.isPure = true := fun b hb =>
      hp b (List.mem_cons_of_mem a hb)
    cases a with
    | actOn k h =>
      simp [runScript, ih _ hrest, applyScript_cons, applyAct]
    | actOff k oh =>
      simp [runScript, ih _ hrest, applyScript_cons, applyAct]
    | actEmit k v => simp [Action.isPure] at ha
    | actThrow => simp [Action.isPure] at ha

theorem invokeList_pure (emitFn : Key → Val → Registry → Option Outcome)
    (env : Env) (mkEv : HId → Ev) (hs : List HId) (r : Registry)
    (hp : PureEnv env) :
    invokeList emitFn env mkEv hs r =
      some (runPhase env hs r, hs.map mkEv, true) := by
  induction hs generalizing r with
  | nil => rfl
  | cons h rest ih =>
    simp [invokeList, runScript_pure emitFn (env h) r (hp h), ih,
      runPhase_cons]

theorem emitR_pure (env : Env) (hp : PureEnv env) (fuel : Nat) (t : Key)
    (v : Val) (r : Registry) :
    emitR env (fuel + 1) t v r =
      some (finalState env t r, pureTrace env t v r, true) := by
  have hw : ∀ r1 : Registry, (match mapGet r1 wildcard with
      | some hs =>
        invokeList (emitR env fuel) env (fun h => Ev.callW h t v) hs r1
      | none => some (r1, [], true)) =
      some (runPhase env (getHandlers r1 wildcard) r1,
        (getHandlers r1 wildcard).map (fun h => Ev.callW h t v), true) := by
    intro r1
    cases hm : mapGet r1 wildcard with
    | none => simp [getHandlers, hm, runPhase]
    | some hs =>
      simp [getHandlers, hm,
        invokeList_pure (emitR env fuel) env _ hs r1 hp]
  cases hm : mapGet r t with
  | none =>
    have hat : afterTyped env t r = r := by
      simp [afterTyped, getHandlers, hm, runPhase]
    simp only [emitR, hm]
    rw [hw r]
    simp [pureTrace, finalState, hat, getHandlers, hm]
  | some hs =>
    have hat : afterTyped env t r = runPhase env hs r := by
      simp [afterTyped, getHandlers, hm]
    simp only [emitR, hm,
      invokeList_pure (emitR env fuel) env _ hs r hp]
    rw [hw (runPhase env hs r)]
    simp [pureTrace, finalState, hat, getHandlers, hm]

theorem silentEnv_pure (env : Env) (hs : SilentEnv env) : PureEnv env :=
  fun h a ha => by
    rw [hs h] at ha
    exact absurd ha (List.not_mem_nil a)

theorem runPhase_silent (env : Env) (hs : SilentEnv env) (l : List HId)
    (r : Registry) : runPhase env l r = r := by
  induction l generalizing r with
  | nil => rfl
  | cons h rest ih =>
    rw [runPhase_cons, hs h]
    exact ih r

theorem obsEnv_pure : PureEnv obsEnv := fun h a ha => by
  rw [show obsEnv h = [] from rfl] at ha
  exact absurd ha (List.not_mem_nil a)

theorem obsEnv_silent : SilentEnv obsEnv := fun _ => rfl

/- Claim C2. -/

/-- Claim C2: for every type with a registered handler sequence and every
handler, off removes exactly the first occurrence of the handler from the
sequence of that type (at most one occurrence per call), and leaves the
registry unchanged when the handler does not occur; on a sequence holding
the handler twice, one call leaves exactly one occurrence and a second call
removes the remaining one. -/
theorem C2_off_first_occurrence (r : Registry) (t : Key) (h : HId)
    (l : List HId) (hget : mapGet r t = some l) :
    mapGet (off r t (some h)) t = some (offSplice l h) ∧
    (h ∉ l → off r t (some h) = r) ∧
    (∀ l1 l2, l = l1 ++ h :: l2 → h ∉ l1 → offSplice l h = l1 ++ l2) ∧
    (h ∈ l → (offSplice l h).count h + 1 = l.count h) ∧
    (l.count h = 2 → (offSplice l h).count h = 1 ∧
      (offSplice (offSplice l h) h).count h = 0) := by
  refine ⟨?_, ?_, ?_, ?_, ?_⟩
  · simp [off, hget]
  · intro hm
    exact off_of_not_mem r t h (by simpa [getHandlers, hget] using hm)
  · intro l1 l2 hl hm
    rw [hl]
    exact offSplice_append_first l1 l2 h hm
  · exact count_offSplice l h
  · intro hc
    have hm : h ∈ l := by
      by_contra hnm
      rw [List.count_eq_zero_of_not_mem hnm] at hc
      omega
    have h1 := count_offSplice l h hm
    rw [hc] at h1
    have hc1 : (offSplice l h).count h = 1 := by omega
    refine ⟨hc1, ?_⟩
    have hm1 : h ∈ offSplice l h := by
      by_contra hnm
      rw [List.count_eq_zero_of_not_mem hnm] at hc1
      omega
    have h2 := count_offSplice (offSplice l h) h hm1
    rw [hc1] at h2
    omega

/-- Concrete check of C2 on the registry holding [4, 5, 4] under "t". -/
theorem C2_witness :
    mapGet [("t", [4, 5, 4])] "t" = some [4, 5, 4] ∧
    (mapGet (off [("t", [4, 5, 4])] "t" (some 4)) "t" =
        some (offSplice [4, 5, 4] 4) ∧
      ((4 : HId) ∉ ([4, 5, 4] : List HId) →
        off [("t", [4, 5, 4])] "t" (some 4) = [("t", [4, 5, 4])]) ∧
      (∀ l1 l2, ([4, 5, 4] : List HId) = l1 ++ 4 :: l2 → (4 : HId) ∉ l1 →
        offSplice [4, 5, 4] 4 = l1 ++ l2) ∧
      ((4 : HId) ∈ ([4, 5, 4] : List HId) →
        (offSplice [4, 5, 4] 4).count 4 + 1 = List.count 4 [4, 5, 4]) ∧
      (List.count 4 ([4, 5, 4] : List HId) = 2 →
        (offSplice [4, 5, 4] 4).count 4 = 1 ∧
        (offSplice (offSplice [4, 5, 4] 4) 4).count 4 = 0)) :=
  ⟨by decide,
    C2_off_first_occurrence [("t", [4, 5, 4])] "t" 4 [4, 5, 4] (by decide)⟩

/- Claim C3. -/

/-- Counterexample to claim C3 as stated: over a registry that already holds
handler 7 under type "t", the function returned by on("t", 7) is not a no-op
on its second invocation — the first invocation removes only the
pre-existing first occurrence of 7, so the second invocation removes the
occurrence the registration added and changes the registry again. -/
theorem C3_counterexample :
    unsub (OnArg.one "t") 7
        (unsub (OnArg.one "t") 7 (onReg [("t", [7])] (OnArg.one "t") 7)) ≠
      unsub (OnArg.one "t") 7 (onReg [("t", [7])] (OnArg.one "t") 7) := by
  decide

/-- Claim C3 (amended): provided the handler is not already registered under
any of the identifiers it is being registered for, and the identifier list
has no duplicates, the zero-argument function returned by on removes the
handler from every identifier it was registered under on its first
invocation — restoring every handler sequence of the registry to its
previous contents — and every subsequent invocation is a no-op that removes
nothing further and leaves the whole registry unchanged. -/
theorem C3_unsub_once_then_noop (r : Registry) (a : OnArg) (h : HId)
    (hnd : (argKeys a).Nodup)
    (habs : ∀ k ∈ argKeys a, h ∉ getHandlers r k) :
    (∀ k, getHandlers (unsub a h (onReg r a h)) k = getHandlers r k) ∧
    unsub a h (unsub a h (onReg r a h)) = unsub a h (onReg r a h) := by
  have hmain : ∀ k,
      getHandlers (unsub a h (onReg r a h)) k = getHandlers r k := by
    intro k
    rw [onReg_eq_onArray, unsub_eq_unsubArray,
      getHandlers_unsubArray _ _ _ _ hnd, getHandlers_onArray _ _ _ _ hnd]
    by_cases hk : k ∈ argKeys a
    · simp only [if_pos hk]
      have := offSplice_append_first (getHandlers r k) [] h (habs k hk)
      simpa using this
    · simp [hk]
  refine ⟨hmain, ?_⟩
  rw [unsub_eq_unsubArray (unsub a h (onReg r a h)) a h]
  apply unsubArray_id
  intro k hk
  rw [hmain k]
  exact habs k hk

/-- Concrete check of C3 (amended) registering handler 7 for "t" and "u"
over a registry that does not hold 7. -/
theorem C3_witness :
    (([("x", [3])] : Registry) = [("x", [3])] ∧
      (argKeys (OnArg.many ["t", "u"])).Nodup ∧
      ∀ k ∈ argKeys (OnArg.many ["t", "u"]),
        (7 : HId) ∉ getHandlers [("x", [3])] k) ∧
    ((∀ k, getHandlers (unsub (OnArg.many ["t", "u"]) 7
        (onReg [("x", [3])] (OnArg.many ["t", "u"]) 7)) k =
          getHandlers [("x", [3])] k) ∧
      unsub (OnArg.many ["t", "u"]) 7 (unsub (OnArg.many ["t", "u"]) 7
          (onReg [("x", [3])] (OnArg.many ["t", "u"]) 7)) =
        unsub (OnArg.many ["t", "u"]) 7
          (onReg [("x", [3])] (OnArg.many ["t", "u"]) 7)) :=
  ⟨⟨rfl, by decide, by decide⟩,
    C3_unsub_once_then_noop [("x", [3])] (OnArg.many ["t", "u"]) 7
      (by decide) (by decide)⟩

/- Claim C5. -/

/-- Claim C5: for every emit call in which no invoked handler throws (pure
handler environment), the trace is the type-matched invocation events — the
typed snapshot in order, each with the payload — followed by all wildcard
invocation events, each with the type and the payload: every type-matched
handler fires before any wildcard handler. -/
theorem C5_typed_before_wildcard (env : Env) (r : Registry) (t : Key)
    (v : Val) (fuel : Nat) (hp : PureEnv env) :
    emitR env (fuel + 1) t v r =
      some (finalState env t r,
        (getHandlers r t).map (fun h => Ev.callT h v) ++
          (getHandlers (afterTyped env t r) wildcard).map
            (fun h => Ev.callW h t v),
        true) :=
  emitR_pure env hp fuel t v r

/-- Concrete check of C5: typed handler 1 fires before wildcard handler 2
when "foo" is emitted. -/
theorem C5_witness :
    PureEnv obsEnv ∧
    emitR obsEnv 1 "foo" 5 [("foo", [1]), ("*", [2])] =
      some (finalState obsEnv "foo" [("foo", [1]), ("*", [2])],
        (getHandlers [("foo", [1]), ("*", [2])] "foo").map
            (fun h => Ev.callT h 5) ++
          (getHandlers
              (afterTyped obsEnv "foo" [("foo", [1]), ("*", [2])])
              wildcard).map (fun h => Ev.callW h "foo" 5),
        true) :=
  ⟨obsEnv_pure,
    C5_typed_before_wildcard obsEnv [("foo", [1]), ("*", [2])] "foo" 5 0
      obsEnv_pure⟩

/- Claim C4. -/

/-- Claim C4: registering three handlers for a type in order, with no
intervening removals, starting from a state with no handlers for that type
and no wildcard handlers, and then emitting the type, invokes exactly those
three handlers, in registration order, each exactly once and each receiving
the payload. -/
theorem C4_registration_order (env : Env) (r : Registry) (t : Key)
    (h1 h2 h3 : HId) (v : Val) (fuel : Nat) (hs : SilentEnv env)
    (ht : getHandlers r t = []) (hw : getHandlers r wildcard = [])
    (htw : t ≠ wildcard) :
    emitR env (fuel + 1) t v
        (onSingle (onSingle (onSingle r t h1) t h2) t h3) =
      some (onSingle (onSingle (onSingle r t h1) t h2) t h3,
        [Ev.callT h1 v, Ev.callT h2 v, Ev.callT h3 v], true) := by
  have hp := silentEnv_pure env hs
  have hh : getHandlers (onSingle (onSingle (onSingle r t h1) t h2) t h3) t
      = [h1, h2, h3] := by
    rw [getHandlers_onSingle_self, getHandlers_onSingle_self,
      getHandlers_onSingle_self, ht]
    rfl
  have hat : afterTyped env t
      (onSingle (onSingle (onSingle r t h1) t h2) t h3) =
      onSingle (onSingle (onSingle r t h1) t h2) t h3 := by
    rw [afterTyped, runPhase_silent env hs]
  have hwl : getHandlers (onSingle (onSingle (onSingle r t h1) t h2) t h3)
      wildcard = [] := by
    rw [getHandlers_onSingle_ne _ _ _ _ (Ne.symm htw),
      getHandlers_onSingle_ne _ _ _ _ (Ne.symm htw),
      getHandlers_onSingle_ne _ _ _ _ (Ne.symm htw), hw]
  rw [emitR_pure env hp fuel t v _, pureTrace, hat, hwl, hh, finalState,
    hat, hwl]
  simp [runPhase]

/-- Concrete check of C4: handlers 1, 2, 3 registered for "a" fire in that
order with payload 6. -/
theorem C4_witness :
    SilentEnv obsEnv ∧
    emitR obsEnv 1 "a" 6
        (onSingle (onSingle (onSingle [] "a" 1) "a" 2) "a" 3) =
      some (onSingle (onSingle (onSingle [] "a" 1) "a" 2) "a" 3,
        [Ev.callT 1 6, Ev.callT 2 6, Ev.callT 3 6], true) :=
  ⟨obsEnv_silent,
    C4_registration_order obsEnv [] "a" 1 2 3 6 0 obsEnv_silent (by decide)
      (by decide) (by decide)⟩

/- Claim C7. -/

/-- Claim C7: for a type with a registered sequence, off with the handler
argument omitted replaces that sequence with an empty one while keeping the
key in the registry, leaves every other key unchanged, and a subsequent emit
of the type (with pure handlers) invokes zero type-matched handlers while
all registered wildcard handlers still fire. -/
theorem C7_clear_all (env : Env) (r : Registry) (t : Key) (v : Val)
    (fuel : Nat) (l : List HId) (hp : PureEnv env)
    (hget : mapGet r t = some l) :
    mapGet (off r t none) t = some [] ∧
    (∀ k, k ≠ t → mapGet (off r t none) k = mapGet r k) ∧
    emitR env (fuel + 1) t v (off r t none) =
      some (runPhase env (getHandlers (off r t none) wildcard)
          (off r t none),
        (getHandlers (off r t none) wildcard).map (fun h => Ev.callW h t v),
        true) := by
  have hoff : off r t none = mapSet r t [] := by simp [off, hget]
  have hzero : getHandlers (off r t none) t = [] := by
    rw [hoff]
    simp [getHandlers]
  have hat : afterTyped env t (off r t none) = off r t none := by
    rw [afterTyped, hzero]
    rfl
  refine ⟨?_, ?_, ?_⟩
  · rw [hoff]
    exact mapGet_mapSet_self r t []
  · intro k hk
    rw [hoff]
    exact mapGet_mapSet_ne r t k [] hk
  · rw [emitR_pure env hp fuel t v (off r t none)]
    simp [pureTrace, finalState, hat, hzero]

/-- Concrete check of C7: clearing "a" keeps the key with an empty sequence,
leaves "b" alone, and a subsequent emit fires only the wildcard handler. -/
theorem C7_witness :
    (PureEnv obsEnv ∧
      mapGet [("a", [1, 2]), ("b", [3]), ("*", [4])] "a" = some [1, 2]) ∧
    (mapGet (off [("a", [1, 2]), ("b", [3]), ("*", [4])] "a" none) "a" =
        some [] ∧
      (∀ k, k ≠ "a" →
        mapGet (off [("a", [1, 2]), ("b", [3]), ("*", [4])] "a" none) k =
          mapGet [("a", [1, 2]), ("b", [3]), ("*", [4])] k) ∧
      emitR obsEnv 1 "a" 9
          (off [("a", [1, 2]), ("b", [3]), ("*", [4])] "a" none) =
        some (runPhase obsEnv
            (getHandlers
              (off [("a", [1, 2]), ("b", [3]), ("*", [4])] "a" none)
              wildcard)
            (off [("a", [1, 2]), ("b", [3]), ("*", [4])] "a" none),
          (getHandlers
              (off [("a", [1, 2]), ("b", [3]), ("*", [4])] "a" none)
              wildcard).map (fun h => Ev.callW h "a" 9),
          true)) :=
  ⟨⟨obsEnv_pure, by decide⟩,
    C7_clear_all obsEnv [("a", [1, 2]), ("b", [3]), ("*", [4])] "a" 9 0
      [1, 2] obsEnv_pure (by decide)⟩

/- Claim C9. -/

/-- Claim C9: emitting a type with no registered sequence raises no error
and invokes no type-matched handler, while the wildcard phase still runs
(wildcard handlers, if any, are invoked); with no wildcard sequence either,
the emit completes with an empty trace and leaves the registry unchanged. -/
theorem C9_absent_type_no_crash (env : Env) (r : Registry) (t : Key)
    (v : Val) (fuel : Nat) (hp : PureEnv env) (ht : mapGet r t = none) :
    emitR env (fuel + 1) t v r =
      some (runPhase env (getHandlers r wildcard) r,
        (getHandlers r wildcard).map (fun h => Ev.callW h t v), true) ∧
    (mapGet r wildcard = none →
      emitR env (fuel + 1) t v r = some (r, [], true)) := by
  have hat : afterTyped env t r = r := by
    rw [afterTyped]
    simp [getHandlers, ht, runPhase]
  constructor
  · rw [emitR_pure env hp fuel t v r]
    simp [pureTrace, finalState, hat, getHandlers, ht]
  · intro hwn
    rw [emitR_pure env hp fuel t v r]
    simp [pureTrace, finalState, hat, getHandlers, ht, hwn, runPhase]

/-- Concrete check of C9: emitting the unregistered type "nope" on an empty
registry completes with an empty trace and no registry change. -/
theorem C9_witness :
    (PureEnv obsEnv ∧ mapGet ([] : Registry) "nope" = none) ∧
    (emitR obsEnv 1 "nope" 3 ([] : Registry) =
        some (runPhase obsEnv (getHandlers ([] : Registry) wildcard) [],
          (getHandlers ([] : Registry) wildcard).map
            (fun h => Ev.callW h "nope" 3), true) ∧
      (mapGet ([] : Registry) wildcard = none →
        emitR obsEnv 1 "nope" 3 ([] : Registry) = some ([], [], true))) :=
  ⟨⟨obsEnv_pure, rfl⟩,
    C9_absent_type_no_crash obsEnv [] "nope" 3 0 obsEnv_pure rfl⟩

/- Claim C8. -/

/-- Claim C8: a single call on([a, b], h) with distinct a and b appends h to
the sequences of both a and b; a subsequent emit of a and a subsequent emit
of b each invoke h with the payload; and one invocation of the returned
unsubscribe function removes h from both a and b. -/
theorem C8_multi_type (env : Env) (r : Registry) (a b : Key) (h : HId)
    (v : Val) (fuel : Nat) (hp : PureEnv env) (hab : a ≠ b)
    (hna : h ∉ getHandlers r a) (hnb : h ∉ getHandlers r b) :
    getHandlers (onReg r (OnArg.many [a, b]) h) a =
      getHandlers r a ++ [h] ∧
    getHandlers (onReg r (OnArg.many [a, b]) h) b =
      getHandlers r b ++ [h] ∧
    (emitR env (fuel + 1) a v (onReg r (OnArg.many [a, b]) h) =
        some (finalState env a (onReg r (OnArg.many [a, b]) h),
          pureTrace env a v (onReg r (OnArg.many [a, b]) h), true) ∧
      Ev.callT h v ∈ pureTrace env a v (onReg r (OnArg.many [a, b]) h)) ∧
    (emitR env (fuel + 1) b v (onReg r (OnArg.many [a, b]) h) =
        some (finalState env b (onReg r (OnArg.many [a, b]) h),
          pureTrace env b v (onReg r (OnArg.many [a, b]) h), true) ∧
      Ev.callT h v ∈ pureTrace env b v (onReg r (OnArg.many [a, b]) h)) ∧
    h ∉ getHandlers (unsub (OnArg.many [a, b]) h
        (onReg r (OnArg.many [a, b]) h)) a ∧
    h ∉ getHandlers (unsub (OnArg.many [a, b]) h
        (onReg r (OnArg.many [a, b]) h)) b := by
  have hnd : ([a, b] : List Key).Nodup := by simp [hab]
  have hone : onReg r (OnArg.many [a, b]) h = onArray r [a, b] h := rfl
  have hget : ∀ k, k ∈ ([a, b] : List Key) →
      getHandlers (onReg r (OnArg.many [a, b]) h) k =
        getHandlers r k ++ [h] := by
    intro k hk
    rw [hone, getHandlers_onArray _ _ _ _ hnd, if_pos hk]
  have hma : a ∈ ([a, b] : List Key) := List.mem_cons_self a [b]
  have hmb : b ∈ ([a, b] : List Key) :=
    List.mem_cons_of_mem a (List.mem_cons_self b [])
  have htrace : ∀ k, k ∈ ([a, b] : List Key) →
      Ev.callT h v ∈ pureTrace env k v (onReg r (OnArg.many [a, b]) h) := by
    intro k hk
    rw [pureTrace]
    refine List.mem_append_left _ (List.mem_map_of_mem _ ?_)
    rw [hget k hk]
    exact List.mem_append_right _ (List.mem_cons_self h [])
  have huns : ∀ k, k ∈ ([a, b] : List Key) → h ∉ getHandlers r k →
      h ∉ getHandlers (unsub (OnArg.many [a, b]) h
        (onReg r (OnArg.many [a, b]) h)) k := by
    intro k hk hnk
    have hu : unsub (OnArg.many [a, b]) h (onReg r (OnArg.many [a, b]) h) =
        unsubArray [a, b] h (onReg r (OnArg.many [a, b]) h) := rfl
    rw [hu, getHandlers_unsubArray _ _ _ _ hnd, if_pos hk, hget k hk]
    have hsp := offSplice_append_first (getHandlers r k) [] h hnk
    rw [List.append_nil] at hsp
    rw [hsp]
    exact hnk
  exact ⟨hget a hma, hget b hmb,
    ⟨emitR_pure env hp fuel a v _, htrace a hma⟩,
    ⟨emitR_pure env hp fuel b v _, htrace b hmb⟩,
    huns a hma hna, huns b hmb hnb⟩

/-- Concrete check of C8: one registration of handler 7 for ["a", "b"]
makes both emits fire it, and one unsubscribe removes it from both. -/
theorem C8_witness :
    (PureEnv obsEnv ∧ "a" ≠ "b" ∧
      (7 : HId) ∉ getHandlers [("a", [1])] "a" ∧
      (7 : HId) ∉ getHandlers [("a", [1])] "b") ∧
    (getHandlers (onReg [("a", [1])] (OnArg.many ["a", "b"]) 7) "a" =
        getHandlers [("a", [1])] "a" ++ [7] ∧
      getHandlers (onReg [("a", [1])] (OnArg.many ["a", "b"]) 7) "b" =
        getHandlers [("a", [1])] "b" ++ [7] ∧
      (emitR obsEnv 1 "a" 5 (onReg [("a", [1])] (OnArg.many ["a", "b"]) 7) =
          some (finalState obsEnv "a"
              (onReg [("a", [1])] (OnArg.many ["a", "b"]) 7),
            pureTrace obsEnv "a" 5
              (onReg [("a", [1])] (OnArg.many ["a", "b"]) 7), true) ∧
        Ev.callT 7 5 ∈ pureTrace obsEnv "a" 5
          (onReg [("a", [1])] (OnArg.many ["a", "b"]) 7)) ∧
      (emitR obsEnv 1 "b" 5 (onReg [("a", [1])] (OnArg.many ["a", "b"]) 7) =
          some (finalState obsEnv "b"
              (onReg [("a", [1])] (OnArg.many ["a", "b"]) 7),
            pureTrace obsEnv "b" 5
              (onReg [("a", [1])] (OnArg.many ["a", "b"]) 7), true) ∧
        Ev.callT 7 5 ∈ pureTrace obsEnv "b" 5
          (onReg [("a", [1])] (OnArg.many ["a", "b"]) 7)) ∧
      (7 : HId) ∉ getHandlers (unsub (OnArg.many ["a", "b"]) 7
          (onReg [("a", [1])] (OnArg.many ["a", "b"]) 7)) "a" ∧
      (7 : HId) ∉ getHandlers (unsub (OnArg.many ["a", "b"]) 7
          (onReg [("a", [1])] (OnArg.many ["a", "b"]) 7)) "b") :=
  ⟨⟨obsEnv_pure, by decide, by decide, by decide⟩,
    C8_multi_type obsEnv [("a", [1])] "a" "b" 7 5 0 obsEnv_pure
      (by decide) (by decide) (by decide)⟩

/- Lemmas about throwing handlers. -/

theorem runScript_throw (emitFn : Key → Val → Registry → Option Outcome)
    (s1 s2 : List Action) (r : Registry)
    (hp : ∀ a ∈ s1, a.isPure = true) :
    runScript emitFn (s1 ++ Action.actThrow :: s2) r =
      some (applyScript s1 r, [], false) := by
  revert hp
  induction s1 generalizing r with
  | nil =>
    intro hp
    rfl
  | cons a rest ih =>
    intro hp
    have ha := hp a (List.mem_cons_self a rest)
    have hrest : ∀ b ∈ rest, b.isPure = true := fun b hb =>
      hp b (List.mem_cons_of_mem a hb)
    cases a with
    | actOn k h =>
      simp [runScript, ih _ hrest, applyScript_cons, applyAct]
    | actOff k oh =>
      simp [runScript, ih _ hrest, applyScript_cons, applyAct]
    | actEmit k v => simp [Action.isPure] at ha
    | actThrow => simp [Action.isPure] at ha

theorem invokeList_pure_front
    (emitFn : Key → Val → Registry → Option Outcome) (env : Env)
    (mkEv : HId → Ev) (pre rest : List HId) (r : Registry)
    (hp : ∀ g ∈ pre, ∀ a ∈ env g, a.isPure = true) :
    invokeList emitFn env mkEv (pre ++ rest) r =
      (invokeList emitFn env mkEv rest (runPhase env pre r)).map
        (fun o => (o.1, pre.map mkEv ++ o.2.1, o.2.2)) := by
  revert hp
  induction pre generalizing r with
  | nil =>
    intro hp
    cases ho : invokeList emitFn env mkEv rest r <;> simp [runPhase, ho]
  | cons g pre ih =>
    intro hp
    have hg := hp g (List.mem_cons_self g pre)
    have hpre : ∀ g2 ∈ pre, ∀ a ∈ env g2, a.isPure = true := fun g2 hg2 =>
      hp g2 (List.mem_cons_of_mem g hg2)
    rw [List.cons_append]
    simp only [invokeList, runScript_pure emitFn (env g) r hg]
    rw [ih _ hpre]
    cases ho : invokeList emitFn env mkEv rest
        (runPhase env pre (applyScript (env g) r)) <;>
      simp [runPhase_cons, ho]

theorem invokeList_throw_head
    (emitFn : Key → Val → Registry → Option Outcome) (env : Env)
    (mkEv : HId → Ev) (hT : HId) (post : List HId) (r : Registry)
    (s1 s2 : List Action) (hbody : env hT = s1 ++ Action.actThrow :: s2)
    (hs1 : ∀ a ∈ s1, a.isPure = true) :
    invokeList emitFn env mkEv (hT :: post) r =
      some (applyScript s1 r, [mkEv hT], false) := by
  simp [invokeList, hbody, runScript_throw emitFn s1 s2 r hs1]

theorem invokeList_local_pure
    (emitFn : Key → Val → Registry → Option Outcome) (env : Env)
    (mkEv : HId → Ev) (hs : List HId) (r : Registry)
    (hp : ∀ g ∈ hs, ∀ a ∈ env g, a.isPure = true) :
    invokeList emitFn env mkEv hs r =
      some (runPhase env hs r, hs.map mkEv, true) := by
  have h := invokeList_pure_front emitFn env mkEv hs [] r hp
  simp only [List.append_nil] at h
  rw [h]
  simp [invokeList]

/- Claim C6. -/

/-- Claim C6: when an invoked handler throws, the exception is not caught —
the emit call ends with the failure flag set, propagating to the caller —
and no further handlers of that emit call are invoked. First part: a
type-matched handler throws — the trace holds exactly the snapshot handlers
before the thrower and the thrower itself, the handlers after it are not
invoked, and the whole wildcard phase is skipped (no wildcard invocation
event at all). Second part: a wildcard handler throws — the typed phase
completes, the trace then holds the wildcard handlers before the thrower
and the thrower itself, and the remaining wildcard invocations are
aborted. -/
theorem C6_throw_aborts (env : Env) (r : Registry) (t : Key) (v : Val)
    (fuel : Nat) :
    (∀ (pre post : List HId) (hT : HId) (s1 s2 : List Action),
      mapGet r t = some (pre ++ hT :: post) →
      (∀ g ∈ pre, ∀ a ∈ env g, a.isPure = true) →
      env hT = s1 ++ Action.actThrow :: s2 →
      (∀ a ∈ s1, a.isPure = true) →
      emitR env (fuel + 1) t v r =
        some (applyScript s1 (runPhase env pre r),
          pre.map (fun g => Ev.callT g v) ++ [Ev.callT hT v], false) ∧
      (∀ g k w, Ev.callW g k w ∉
        pre.map (fun g2 => Ev.callT g2 v) ++ [Ev.callT hT v]) ∧
      (∀ g, g ∉ pre → g ≠ hT → ∀ w,
        Ev.callT g w ∉
          pre.map (fun g2 => Ev.callT g2 v) ++ [Ev.callT hT v])) ∧
    (∀ (wpre wpost : List HId) (hT : HId) (s1 s2 : List Action),
      (∀ g ∈ getHandlers r t, ∀ a ∈ env g, a.isPure = true) →
      mapGet (afterTyped env t r) wildcard = some (wpre ++ hT :: wpost) →
      (∀ g ∈ wpre, ∀ a ∈ env g, a.isPure = true) →
      env hT = s1 ++ Action.actThrow :: s2 →
      (∀ a ∈ s1, a.isPure = true) →
      emitR env (fuel + 1) t v r =
        some (applyScript s1 (runPhase env wpre (afterTyped env t r)),
          (getHandlers r t).map (fun g => Ev.callT g v) ++
            (wpre.map (fun g => Ev.callW g t v) ++ [Ev.callW hT t v]),
          false) ∧
      (∀ g, g ∉ wpre → g ≠ hT → ∀ k w,
        Ev.callW g k w ∉
          (getHandlers r t).map (fun g2 => Ev.callT g2 v) ++
            (wpre.map (fun g2 => Ev.callW g2 t v) ++ [Ev.callW hT t v]))) := by
  constructor
  · intro pre post hT s1 s2 hget hpre hbody hs1
    have hinvoke : invokeList (emitR env fuel) env (fun g => Ev.callT g v)
        (pre ++ hT :: post) r =
        some (applyScript s1 (runPhase env pre r),
          pre.map (fun g => Ev.callT g v) ++ [Ev.callT hT v], false) := by
      rw [invokeList_pure_front (emitR env fuel) env _ pre (hT :: post) r
          hpre,
        invokeList_throw_head (emitR env fuel) env _ hT post
          (runPhase env pre r) s1 s2 hbody hs1]
      rfl
    refine ⟨?_, ?_, ?_⟩
    · simp only [emitR, hget, hinvoke]
      rfl
    · intro g k w
      simp
    · intro g hgpre hghT w
      simp [hgpre, hghT]
      intro x hx hxg
      exact absurd (hxg ▸ hx) hgpre
  · intro wpre wpost hT s1 s2 htl hwget hwpre hbody hs1
    have hwinv : invokeList (emitR env fuel) env (fun g => Ev.callW g t v)
        (wpre ++ hT :: wpost) (afterTyped env t r) =
        some (applyScript s1 (runPhase env wpre (afterTyped env t r)),
          wpre.map (fun g => Ev.callW g t v) ++ [Ev.callW hT t v],
          false) := by
      rw [invokeList_pure_front (emitR env fuel) env _ wpre (hT :: wpost)
          _ hwpre,
        invokeList_throw_head (emitR env fuel) env _ hT wpost
          (runPhase env wpre (afterTyped env t r)) s1 s2 hbody hs1]
      rfl
    have hnot : ∀ g, g ∉ wpre → g ≠ hT → ∀ k w,
        Ev.callW g k w ∉
          (getHandlers r t).map (fun g2 => Ev.callT g2 v) ++
            (wpre.map (fun g2 => Ev.callW g2 t v) ++ [Ev.callW hT t v]) := by
      intro g hgp hgT k w
      simp [hgT]
      intro x hx hxg
      exact absurd (hxg ▸ hx) hgp
    refine ⟨?_, hnot⟩
    cases hm : mapGet r t with
    | none =>
      have hgh : getHandlers r t = [] := by simp [getHandlers, hm]
      have hat : afterTyped env t r = r := by
        rw [afterTyped, hgh]
        rfl
      rw [hat] at hwget hwinv
      simp only [emitR, hm, hwget, hwinv, hgh]
      simp [hat]
    | some hs =>
      have hgh : getHandlers r t = hs := by simp [getHandlers, hm]
      have htl2 : ∀ g ∈ hs, ∀ a ∈ env g, a.isPure = true := by
        rw [← hgh]
        exact htl
      have hat : afterTyped env t r = runPhase env hs r := by
        rw [afterTyped, hgh]
      rw [hat] at hwget hwinv
      simp only [emitR, hm,
        invokeList_local_pure (emitR env fuel) env _ hs r htl2, hwget,
        hwinv, hgh]
      simp [hat]

/-- Concrete check of C6 in both phases: with handlers [1, 2, 3] for "a",
wildcard handler 4, and handler 2 throwing, emit invokes 1 then 2 and stops
with the exception propagating — 3 and the wildcard never fire; and with
handler 1 for "a", wildcard handlers [3, 2, 4] and handler 2 throwing, emit
runs the typed phase, then wildcard 3, then the thrower 2, and aborts
before 4. -/
theorem C6_witness :
    ((mapGet [("a", [1, 2, 3]), ("*", [4])] "a" = some ([1] ++ 2 :: [3]) ∧
        envThrow 2 = [] ++ Action.actThrow :: []) ∧
      (emitR envThrow 1 "a" 5 [("a", [1, 2, 3]), ("*", [4])] =
          some (applyScript []
              (runPhase envThrow [1] [("a", [1, 2, 3]), ("*", [4])]),
            [1].map (fun g => Ev.callT g 5) ++ [Ev.callT 2 5], false) ∧
        (∀ g k w, Ev.callW g k w ∉
          [1].map (fun g2 => Ev.callT g2 5) ++ [Ev.callT 2 5]) ∧
        (∀ g, g ∉ ([1] : List HId) → g ≠ 2 → ∀ w,
          Ev.callT g w ∉
            [1].map (fun g2 => Ev.callT g2 5) ++ [Ev.callT 2 5]))) ∧
    (mapGet (afterTyped envThrow "a" [("a", [1]), ("*", [3, 2, 4])])
        wildcard = some ([3] ++ 2 :: [4]) ∧
      (emitR envThrow 1 "a" 5 [("a", [1]), ("*", [3, 2, 4])] =
          some (applyScript []
              (runPhase envThrow [3]
                (afterTyped envThrow "a" [("a", [1]), ("*", [3, 2, 4])])),
            (getHandlers [("a", [1]), ("*", [3, 2, 4])] "a").map
                (fun g => Ev.callT g 5) ++
              ([3].map (fun g => Ev.callW g "a" 5) ++ [Ev.callW 2 "a" 5]),
            false) ∧
        (∀ g, g ∉ ([3] : List HId) → g ≠ 2 → ∀ k w,
          Ev.callW g k w ∉
            (getHandlers [("a", [1]), ("*", [3, 2, 4])] "a").map
                (fun g2 => Ev.callT g2 5) ++
              ([3].map (fun g2 => Ev.callW g2 "a" 5) ++
                [Ev.callW 2 "a" 5])))) :=
  ⟨⟨⟨by decide, by decide⟩,
      (C6_throw_aborts envThrow [("a", [1, 2, 3]), ("*", [4])] "a" 5 0).1
        [1] [3] 2 [] [] (by decide) (by decide) (by decide) (by decide)⟩,
    ⟨by decide,
      (C6_throw_aborts envThrow [("a", [1]), ("*", [3, 2, 4])] "a" 5 0).2
        [3] [4] 2 [] [] (by decide) (by decide) (by decide) (by decide)
        (by decide)⟩⟩

/- Lemmas tracking membership of a handler in a registered sequence
across pure handler scripts. -/

theorem getHandlers_off_none (r : Registry) (k : Key) :
    getHandlers (off r k none) k = [] := by
  cases hm : mapGet r k with
  | none => simp [off, getHandlers, hm]
  | some hs => simp [off, getHandlers, hm]

theorem applyAct_not_mem (a : Action) (r : Registry) (k : Key) (g : HId)
    (hna : a ≠ Action.actOn k g) (hm : g ∉ getHandlers r k) :
    g ∉ getHandlers (applyAct a r) k := by
  cases a with
  | actOn k2 h =>
    have heq : applyAct (Action.actOn k2 h) r = onSingle r k2 h := rfl
    rw [heq]
    by_cases hk : k = k2
    · subst hk
      have hgh : h ≠ g := by
        intro he
        exact hna (by rw [he])
      rw [getHandlers_onSingle_self]
      intro hmem
      rcases List.mem_append.mp hmem with hmem | hmem
      · exact hm hmem
      · exact hgh (List.mem_singleton.mp hmem).symm
    · rw [getHandlers_onSingle_ne _ _ _ _ hk]
      exact hm
  | actOff k2 oh =>
    have heq : applyAct (Action.actOff k2 oh) r = off r k2 oh := rfl
    rw [heq]
    by_cases hk : k = k2
    · subst hk
      cases oh with
      | none =>
        rw [getHandlers_off_none]
        exact List.not_mem_nil g
      | some h2 =>
        rw [getHandlers_off_some]
        intro hmem
        exact hm (mem_of_mem_offSplice _ _ _ hmem)
    · rw [getHandlers_off_ne _ _ _ _ hk]
      exact hm
  | actEmit k2 v2 => exact hm
  | actThrow => exact hm

theorem applyScript_not_mem (s : List Action) (k : Key) (g : HId) :
    ∀ r : Registry, Action.actOn k g ∉ s → g ∉ getHandlers r k →
      g ∉ getHandlers (applyScript s r) k := by
  induction s with
  | nil =>
    intro r _ hm
    exact hm
  | cons a rest ih =>
    intro r hna hm
    rw [List.mem_cons, not_or] at hna
    rw [applyScript_cons]
    exact ih _ hna.2 (applyAct_not_mem a r k g (fun he => hna.1 he.symm) hm)

theorem runPhase_not_mem (env : Env) (hs : List HId) (k : Key) (g : HId)
    (hna : ∀ h2, Action.actOn k g ∉ env h2) :
    ∀ r : Registry, g ∉ getHandlers r k →
      g ∉ getHandlers (runPhase env hs r) k := by
  induction hs with
  | nil =>
    intro r hm
    exact hm
  | cons h2 rest ih =>
    intro r hm
    rw [runPhase_cons]
    exact ih _ (applyScript_not_mem (env h2) k g r (hna h2) hm)

theorem applyAct_mem_mono (a : Action) (r : Registry) (k : Key) (g : HId)
    (hno : ∀ oh, a ≠ Action.actOff k oh) (hm : g ∈ getHandlers r k) :
    g ∈ getHandlers (applyAct a r) k := by
  cases a with
  | actOn k2 h =>
    have heq : applyAct (Action.actOn k2 h) r = onSingle r k2 h := rfl
    rw [heq]
    by_cases hk : k = k2
    · subst hk
      rw [getHandlers_onSingle_self]
      exact List.mem_append_left _ hm
    · rw [getHandlers_onSingle_ne _ _ _ _ hk]
      exact hm
  | actOff k2 oh =>
    have heq : applyAct (Action.actOff k2 oh) r = off r k2 oh := rfl
    rw [heq]
    by_cases hk : k = k2
    · subst hk
      exact absurd rfl (hno oh)
    · rw [getHandlers_off_ne _ _ _ _ hk]
      exact hm
  | actEmit k2 v2 => exact hm
  | actThrow => exact hm

theorem applyScript_mem_mono (s : List Action) (k : Key) (g : HId) :
    ∀ r : Registry, (∀ oh, Action.actOff k oh ∉ s) →
      g ∈ getHandlers r k → g ∈ getHandlers (applyScript s r) k := by
  induction s with
  | nil =>
    intro r _ hm
    exact hm
  | cons a rest ih =>
    intro r hno hm
    rw [applyScript_cons]
    have hno1 : ∀ oh, a ≠ Action.actOff k oh := by
      intro oh he
      exact hno oh (by rw [← he]; exact List.mem_cons_self a rest)
    have hno2 : ∀ oh, Action.actOff k oh ∉ rest := fun oh ho =>
      hno oh (List.mem_cons_of_mem a ho)
    exact ih _ hno2 (applyAct_mem_mono a r k g hno1 hm)

theorem runPhase_mem_mono (env : Env) (hs : List HId) (k : Key) (g : HId)
    (hno : ∀ h2 oh, Action.actOff k oh ∉ env h2) :
    ∀ r : Registry, g ∈ getHandlers r k →
      g ∈ getHandlers (runPhase env hs r) k := by
  induction hs with
  | nil =>
    intro r hm
    exact hm
  | cons h2 rest ih =>
    intro r hm
    rw [runPhase_cons]
    exact ih _ (applyScript_mem_mono (env h2) k g _ (hno h2) hm)

theorem applyScript_adds (s : List Action) (k : Key) (g : HId) :
    ∀ r : Registry, Action.actOn k g ∈ s →
      (∀ oh, Action.actOff k oh ∉ s) →
      g ∈ getHandlers (applyScript s r) k := by
  induction s with
  | nil =>
    intro r hin _
    exact absurd hin (List.not_mem_nil _)
  | cons a rest ih =>
    intro r hin hno
    rw [applyScript_cons]
    have hno2 : ∀ oh, Action.actOff k oh ∉ rest := fun oh ho =>
      hno oh (List.mem_cons_of_mem a ho)
    rcases List.mem_cons.mp hin with ha | ha
    · have hg : g ∈ getHandlers (applyAct a r) k := by
        rw [← ha]
        have heq : applyAct (Action.actOn k g) r = onSingle r k g := rfl
        rw [heq, getHandlers_onSingle_self]
        exact List.mem_append_right _ (List.mem_cons_self g [])
      exact applyScript_mem_mono rest k g _ hno2 hg
    · exact ih _ ha hno2

theorem runPhase_adds (env : Env) (hs : List HId) (k : Key) (g h2 : HId)
    (hin : Action.actOn k g ∈ env h2)
    (hno : ∀ h3 oh, Action.actOff k oh ∉ env h3) :
    ∀ r : Registry, h2 ∈ hs → g ∈ getHandlers (runPhase env hs r) k := by
  induction hs with
  | nil =>
    intro r hh
    exact absurd hh (List.not_mem_nil h2)
  | cons h0 rest ih =>
    intro r hh
    rw [runPhase_cons]
    rcases List.mem_cons.mp hh with he | he
    · have hg : g ∈ getHandlers (applyScript (env h0) r) k :=
        applyScript_adds (env h0) k g r (he ▸ hin) (hno h0)
      exact runPhase_mem_mono env rest k g hno _ hg
    · exact ih _ he

/- Claim C1. -/

/-- Claim C1: snapshot isolation of the typed phase. For every registry
state and pure handler environment in which a handler of the current typed
snapshot of t registers a fresh handler hNew for t during its own
invocation — hNew not being in the snapshot, not registered as a wildcard,
never registered as a wildcard by any script, and never removed by any
script — the emit completes without invoking hNew at all, neither as a
typed nor as a wildcard handler, while hNew ends up registered for t; a
subsequent emit of t then does invoke hNew with its payload. -/
theorem C1_snapshot_isolation (env : Env) (r : Registry) (t : Key)
    (v v2 : Val) (hNew hAct : HId) (pre post : List HId) (fuel fuel2 : Nat)
    (hp : PureEnv env)
    (hsnap : getHandlers r t = pre ++ hAct :: post)
    (hcall : Action.actOn t hNew ∈ env hAct)
    (hnt : hNew ∉ getHandlers r t)
    (hnw : hNew ∉ getHandlers r wildcard)
    (hnoW : ∀ g, Action.actOn wildcard hNew ∉ env g)
    (hnoOff : ∀ g oh, Action.actOff t oh ∉ env g) :
    emitR env (fuel + 1) t v r =
      some (finalState env t r, pureTrace env t v r, true) ∧
    (∀ w, Ev.callT hNew w ∉ pureTrace env t v r) ∧
    (∀ k w, Ev.callW hNew k w ∉ pureTrace env t v r) ∧
    hNew ∈ getHandlers (finalState env t r) t ∧
    emitR env (fuel2 + 1) t v2 (finalState env t r) =
      some (finalState env t (finalState env t r),
        pureTrace env t v2 (finalState env t r), true) ∧
    Ev.callT hNew v2 ∈ pureTrace env t v2 (finalState env t r) := by
  have hwnot : hNew ∉ getHandlers (afterTyped env t r) wildcard := by
    rw [afterTyped]
    exact runPhase_not_mem env (getHandlers r t) wildcard hNew hnoW r hnw
  have hnotT : ∀ w, Ev.callT hNew w ∉ pureTrace env t v r := by
    intro w hwmem
    rw [pureTrace] at hwmem
    rcases List.mem_append.mp hwmem with hmem | hmem
    · rcases List.mem_map.mp hmem with ⟨x, hx, hxe⟩
      cases hxe
      exact hnt hx
    · rcases List.mem_map.mp hmem with ⟨x, hx, hxe⟩
      cases hxe
  have hnotW : ∀ k w, Ev.callW hNew k w ∉ pureTrace env t v r := by
    intro k w hwmem
    rw [pureTrace] at hwmem
    rcases List.mem_append.mp hwmem with hmem | hmem
    · rcases List.mem_map.mp hmem with ⟨x, hx, hxe⟩
      cases hxe
    · rcases List.mem_map.mp hmem with ⟨x, hx, hxe⟩
      cases hxe
      exact hwnot hx
  have hAmem : hAct ∈ getHandlers r t := by
    rw [hsnap]
    exact List.mem_append_right _ (List.mem_cons_self hAct post)
  have h1 : hNew ∈ getHandlers (afterTyped env t r) t := by
    rw [afterTyped]
    exact runPhase_adds env (getHandlers r t) t hNew hAct hcall hnoOff r
      hAmem
  have hfin : hNew ∈ getHandlers (finalState env t r) t := by
    rw [finalState]
    exact runPhase_mem_mono env _ t hNew hnoOff _ h1
  have hlast : Ev.callT hNew v2 ∈ pureTrace env t v2 (finalState env t r) := by
    rw [pureTrace]
    exact List.mem_append_left _ (List.mem_map_of_mem _ hfin)
  exact ⟨emitR_pure env hp fuel t v r, hnotT, hnotW, hfin,
    emitR_pure env hp fuel2 t v2 _, hlast⟩

theorem envReg_pure : PureEnv envReg := by
  intro g a ha
  by_cases hg : g = 1 <;> simp [envReg, hg] at ha
  rw [ha]
  rfl

theorem envReg_noW : ∀ g, Action.actOn wildcard 9 ∉ envReg g := by
  intro g
  by_cases hg : g = 1 <;> simp [envReg, hg, wildcard]

theorem envReg_noOffA : ∀ g oh, Action.actOff "a" oh ∉ envReg g := by
  intro g oh
  by_cases hg : g = 1 <;> simp [envReg, hg]

/-- Concrete check of C1: handler 1 for "a" registers handler 9 for "a"
while "a" is being emitted; 9 does not fire during that emit but does fire
on the next emit of "a". -/
theorem C1_witness :
    (PureEnv envReg ∧
      getHandlers [("a", [1])] "a" = [] ++ 1 :: [] ∧
      Action.actOn "a" 9 ∈ envReg 1 ∧
      (9 : HId) ∉ getHandlers [("a", [1])] "a" ∧
      (9 : HId) ∉ getHandlers [("a", [1])] wildcard ∧
      (∀ g, Action.actOn wildcard 9 ∉ envReg g) ∧
      (∀ g oh, Action.actOff "a" oh ∉ envReg g)) ∧
    (emitR envReg 1 "a" 0 [("a", [1])] =
        some (finalState envReg "a" [("a", [1])],
          pureTrace envReg "a" 0 [("a", [1])], true) ∧
      (∀ w, Ev.callT 9 w ∉ pureTrace envReg "a" 0 [("a", [1])]) ∧
      (∀ k w, Ev.callW 9 k w ∉ pureTrace envReg "a" 0 [("a", [1])]) ∧
      (9 : HId) ∈ getHandlers (finalState envReg "a" [("a", [1])]) "a" ∧
      emitR envReg 1 "a" 2 (finalState envReg "a" [("a", [1])]) =
        some (finalState envReg "a" (finalState envReg "a" [("a", [1])]),
          pureTrace envReg "a" 2 (finalState envReg "a" [("a", [1])]),
          true) ∧
      Ev.callT 9 2 ∈ pureTrace envReg "a" 2
        (finalState envReg "a" [("a", [1])])) :=
  ⟨⟨envReg_pure, by decide, by decide, by decide, by decide, envReg_noW,
      envReg_noOffA⟩,
    C1_snapshot_isolation envReg [("a", [1])] "a" 0 2 9 1 [] [] 0 0
      envReg_pure (by decide) (by decide) (by decide) (by decide)
      envReg_noW envReg_noOffA⟩

/- Claim C10. -/

/-- Claim C10: the wildcard sequence is read only after the typed phase has
completed. For every registry state and pure handler environment in which a
handler of the typed snapshot of t registers a wildcard handler hw during
its own invocation (and no script removes wildcard handlers), hw is invoked
with the type and the payload within that same emit call. -/
theorem C10_wildcard_read_after_typed (env : Env) (r : Registry) (t : Key)
    (v : Val) (hw hAct : HId) (pre post : List HId) (fuel : Nat)
    (hp : PureEnv env)
    (hsnap : getHandlers r t = pre ++ hAct :: post)
    (hcall : Action.actOn wildcard hw ∈ env hAct)
    (hnoOff : ∀ g oh, Action.actOff wildcard oh ∉ env g) :
    emitR env (fuel + 1) t v r =
      some (finalState env t r, pureTrace env t v r, true) ∧
    Ev.callW hw t v ∈ pureTrace env t v r := by
  have hAmem : hAct ∈ getHandlers r t := by
    rw [hsnap]
    exact List.mem_append_right _ (List.mem_cons_self hAct post)
  have hmem : hw ∈ getHandlers (afterTyped env t r) wildcard := by
    rw [afterTyped]
    exact runPhase_adds env (getHandlers r t) wildcard hw hAct hcall hnoOff
      r hAmem
  exact ⟨emitR_pure env hp fuel t v r, by
    rw [pureTrace]
    exact List.mem_append_right _ (List.mem_map_of_mem _ hmem)⟩

theorem envRegW_pure : PureEnv envRegW := by
  intro g a ha
  by_cases hg : g = 1 <;> simp [envRegW, hg] at ha
  rw [ha]
  rfl

theorem envRegW_noOffW : ∀ g oh, Action.actOff wildcard oh ∉ envRegW g := by
  intro g oh
  by_cases hg : g = 1 <;> simp [envRegW, hg]

/-- Concrete check of C10: handler 1 for "a" registers wildcard handler 9
while "a" is being emitted, and 9 fires with ("a", payload) within the same
emit call. -/
theorem C10_witness :
    (PureEnv envRegW ∧
      getHandlers [("a", [1])] "a" = [] ++ 1 :: [] ∧
      Action.actOn wildcard 9 ∈ envRegW 1 ∧
      (∀ g oh, Action.actOff wildcard oh ∉ envRegW g)) ∧
    (emitR envRegW 1 "a" 5 [("a", [1])] =
        some (finalState envRegW "a" [("a", [1])],
          pureTrace envRegW "a" 5 [("a", [1])], true) ∧
      Ev.callW 9 "a" 5 ∈ pureTrace envRegW "a" 5 [("a", [1])]) :=
  ⟨⟨envRegW_pure, by decide, by decide, envRegW_noOffW⟩,
    C10_wildcard_read_after_typed envRegW [("a", [1])] "a" 5 9 1 [] [] 0
      envRegW_pure (by decide) (by decide) envRegW_noOffW⟩

end Mitt
